import Mathlib

/-!
Verification of the subject_drive_sched study scheduler.

The development shallowly embeds the two Python modules of the repository:
`scheduler.py` (the enhanced scheduler with balanced generation) and
`study_scheduler.py` (the earlier version, embedded under the namespace
`StudySchedulerV1` where its behaviour differs).

Modelling conventions:
* Calendar dates are integers counting days; the model fixes day `0` to be a
  Monday, so Python's `date.weekday()` becomes `d.emod 7`.
* Datetimes are integers counting minutes, with `t.fdiv 1440` giving the
  calendar day of a datetime (Python's `.date()`), matching floor division.
* The `'%Y-%m-%d'` date strings used as plan keys and `class_date` values are
  represented by their day numbers: `strftime` is injective and monotone on
  them, so dictionary keying and lexicographic sorting are preserved.
* Python dicts become association lists in insertion order; dict update of an
  existing key edits the first matching entry, a fresh key is appended.
* Python's stable `list.sort(key=...)` is embedded as `List.insertionSort`
  with the non-strict key order, which is extensionally the same stable sort.
-/

/-- One study session, exactly the dictionary built by
`generate_balanced_study_plan` in `scheduler.py` (lines 129-137).  The
`desiredStudyDt` field models the `'desired_study_dt'` key, which sessions
loaded from an old plan file may lack, hence the `Option`. -/
structure Session where
  subject : String
  classDate : Int
  classTime : Nat
  topic : String
  completed : Bool
  location : String
  desiredStudyDt : Option Int
deriving DecidableEq, Repr

/-- One imported class record, the `class_info` dictionary of `load_classes`. -/
structure ClassInfo where
  subject : String
  startDate : Int
  startTime : Nat
  location : String
  description : String
deriving DecidableEq, Repr

/-- One CSV data row as seen after `csv.DictReader`: every header column is
present, missing cells being empty strings. -/
structure Row where
  betreff : String
  beginntAm : String
  beginntUm : String
  ort : String
  beschreibung : String
deriving DecidableEq, Repr

/-- The study plan: a date-keyed dictionary of session lists, in insertion
order. -/
abbrev Plan := List (Int × List Session)

section AssocList

variable {κ ω : Type} [DecidableEq κ]

/-- First entry of an association list with the given key (Python dict
lookup, entry included). -/
def lookupEntry : List (κ × ω) → κ → Option (κ × ω)
  | [], _ => none
  | e :: rest, k => if e.1 = k then some e else lookupEntry rest k

/-- Dictionary lookup of a list-valued entry, defaulting to the empty list. -/
def lookupListD : List (κ × List ω) → κ → List ω
  | [], _ => []
  | (k0, vs) :: tl, k => if k0 = k then vs else lookupListD tl k

/-- Whether the dictionary has the key (Python's `k in d`). -/
def containsKey : List (κ × ω) → κ → Bool
  | [], _ => false
  | e :: rest, k => decide (e.1 = k) || containsKey rest k

/-- Append a value to the list stored at `k`, creating the entry at the end
if the key is absent.  This is the shared shape of `defaultdict(list)`
appends in `load_classes` and of the
`if date not in balanced_plan: balanced_plan[date] = []` +
`balanced_plan[date].append(session)` idiom in
`generate_balanced_study_plan`. -/
def alistAppend : List (κ × List ω) → κ → ω → List (κ × List ω)
  | [], k, v => [(k, [v])]
  | (k', vs) :: rest, k, v =>
      if k' = k then (k', vs ++ [v]) :: rest else (k', vs) :: alistAppend rest k v

theorem lookupEntry_key {m : List (κ × ω)} {k : κ} {e : κ × ω}
    (h : lookupEntry m k = some e) : e.1 = k := by
  induction m with
  | nil => simp [lookupEntry] at h
  | cons hd tl ih =>
    by_cases hk : hd.1 = k
    · simp [lookupEntry, hk] at h
      simp [← h, hk]
    · simp [lookupEntry, hk] at h
      exact ih h

theorem lookupListD_alistAppend (m : List (κ × List ω)) (k k' : κ) (v : ω) :
    lookupListD (alistAppend m k v) k' =
      if k' = k then lookupListD m k' ++ [v] else lookupListD m k' := by
  induction m with
  | nil =>
    simp only [alistAppend, lookupListD]
    split_ifs <;> simp_all
  | cons hd tl ih =>
    obtain ⟨k0, vs⟩ := hd
    by_cases h0 : k0 = k
    · rw [show alistAppend ((k0, vs) :: tl) k v = (k0, vs ++ [v]) :: tl by
        simp [alistAppend, h0]]
      simp only [lookupListD]
      split_ifs <;> simp_all
    · rw [show alistAppend ((k0, vs) :: tl) k v = (k0, vs) :: alistAppend tl k v by
        simp [alistAppend, h0]]
      simp only [lookupListD, ih]
      split_ifs <;> simp_all

end AssocList

/-- All sessions stored anywhere in a plan (flattening the dictionary's
values). -/
def planSessions (p : Plan) : List Session :=
  (p.map Prod.snd).flatten

/-- The sessions of a plan at one study date (Python `plan[date]`, empty when
the key is absent). -/
def lookupList (p : Plan) (d : Int) : List Session :=
  lookupListD p d

/-- Flip the `completed` flag of a session, the effect of
`session['completed'] = not session.get('completed', False)`. -/
def toggleSession (s : Session) : Session :=
  { s with completed := !s.completed }

/-- Replace the element at one position of a list, leaving everything else
unchanged (the effect of mutating `self.study_plan[study_date][index]`). -/
def listModify {α : Type} (f : α → α) : Nat → List α → List α
  | _, [] => []
  | 0, a :: as => f a :: as
  | n + 1, a :: as => a :: listModify f n as

/-- Toggle the session at position `i` of the list stored under `d`,
editing the (unique) dictionary entry in place. -/
def planModify (p : Plan) (d : Int) (i : Nat) : Plan :=
  match p with
  | [] => []
  | (k, ss) :: rest =>
      if k = d then (k, listModify toggleSession i ss) :: rest
      else (k, ss) :: planModify rest d i

/-- Embedding of `StudyScheduler.mark_completed_by_index` from `scheduler.py`
(lines 235-240): guard on key membership and index range, then flip the
`completed` flag; report success as the boolean. -/
def mark_completed_by_index (plan : Plan) (studyDate : Int) (index : Nat) :
    Bool × Plan :=
  if containsKey plan studyDate = true ∧ index < (lookupList plan studyDate).length then
    (true, planModify plan studyDate index)
  else
    (false, plan)

theorem listModify_eq_set {α : Type} (f : α → α) (l : List α) (i : Nat)
    (h : i < l.length) :
    listModify f i l = l.set i (f (l.get ⟨i, h⟩)) := by
  induction l generalizing i with
  | nil => simp at h
  | cons a as ih =>
    cases i with
    | zero => simp [listModify]
    | succ n =>
      simp only [listModify, List.set]
      have hn : n < as.length := by simpa using h
      rw [ih n hn]
      rfl

theorem lookupList_planModify_self (p : Plan) (d : Int) (i : Nat) :
    lookupList (planModify p d i) d = listModify toggleSession i (lookupList p d) := by
  induction p with
  | nil => simp [planModify, lookupList, lookupListD, listModify]
  | cons hd tl ih =>
    obtain ⟨k, ss⟩ := hd
    by_cases hk : k = d
    · subst hk
      simp [planModify, lookupList, lookupListD]
    · simp [planModify, hk, lookupList, lookupListD] at ih ⊢
      exact ih

theorem lookupList_planModify_other (p : Plan) (d : Int) (i : Nat) (d₂ : Int)
    (hne : d₂ ≠ d) :
    lookupList (planModify p d i) d₂ = lookupList p d₂ := by
  induction p with
  | nil => simp [planModify]
  | cons hd tl ih =>
    obtain ⟨k, ss⟩ := hd
    by_cases hk : k = d
    · subst hk
      have hkd : ¬ k = d₂ := fun h => hne (h ▸ rfl)
      simp [planModify, lookupList, lookupListD, hkd]
    · by_cases hk2 : k = d₂
      · subst hk2
        simp [planModify, hk, lookupList, lookupListD]
      · simp [planModify, hk, lookupList, lookupListD, hk2] at ih ⊢
        exact ih

theorem containsKey_planModify (p : Plan) (d : Int) (i : Nat) (k : Int) :
    containsKey (planModify p d i) k = containsKey p k := by
  induction p with
  | nil => simp [planModify]
  | cons hd tl ih =>
    obtain ⟨k0, ss⟩ := hd
    by_cases hk : k0 = d
    · subst hk
      simp [planModify, containsKey]
    · simp only [planModify, if_neg hk, containsKey]
      rw [ih]

theorem listModify_length {α : Type} (f : α → α) (i : Nat) (l : List α) :
    (listModify f i l).length = l.length := by
  induction l generalizing i with
  | nil => simp [listModify]
  | cons a as ih =>
    cases i with
    | zero => simp [listModify]
    | succ n => simp [listModify, ih]

theorem toggleSession_toggleSession (s : Session) :
    toggleSession (toggleSession s) = s := by
  simp [toggleSession]

theorem listModify_toggle_toggle (i : Nat) (l : List Session) :
    listModify toggleSession i (listModify toggleSession i l) = l := by
  induction l generalizing i with
  | nil => simp [listModify]
  | cons a as ih =>
    cases i with
    | zero => simp [listModify, toggleSession_toggleSession]
    | succ n => simp [listModify, ih]

theorem planModify_planModify (p : Plan) (d : Int) (i : Nat) :
    planModify (planModify p d i) d i = p := by
  induction p with
  | nil => simp [planModify]
  | cons hd tl ih =>
    obtain ⟨k, ss⟩ := hd
    by_cases hk : k = d
    · subst hk
      simp [planModify, listModify_toggle_toggle]
    · simp [planModify, hk, ih]

/-- C9: with an in-plan study date and in-range index,
`mark_completed_by_index` returns success and flips exactly the `completed`
flag of the addressed session, leaving all other sessions and dates
untouched; with an out-of-range date or index it returns failure and leaves
the plan unchanged (and, being a total function, raises nothing). -/
theorem mark_completed_by_index_spec (plan : Plan) (d : Int) (i : Nat) :
    (∀ h : containsKey plan d = true ∧ i < (lookupList plan d).length,
      (mark_completed_by_index plan d i).1 = true ∧
      lookupList (mark_completed_by_index plan d i).2 d =
        (lookupList plan d).set i
          (toggleSession ((lookupList plan d).get ⟨i, h.2⟩)) ∧
      ∀ d₂, d₂ ≠ d →
        lookupList (mark_completed_by_index plan d i).2 d₂ = lookupList plan d₂) ∧
    (¬ (containsKey plan d = true ∧ i < (lookupList plan d).length) →
      mark_completed_by_index plan d i = (false, plan)) := by
  constructor
  · intro h
    have heq : mark_completed_by_index plan d i = (true, planModify plan d i) := by
      simp only [mark_completed_by_index, if_pos h]
    have heq2 : (mark_completed_by_index plan d i).2 = planModify plan d i := by
      rw [heq]
    refine ⟨by rw [heq], ?_, ?_⟩
    · rw [heq2, lookupList_planModify_self, listModify_eq_set _ _ _ h.2]
    · intro d₂ hne
      rw [heq2]
      exact lookupList_planModify_other plan d i d₂ hne
  · intro h
    simp only [mark_completed_by_index, if_neg h]

/-- Concrete instance of `mark_completed_by_index_spec`: in the one-day,
one-session demo plan, position (day 3, index 0) is in range and the call
flips the flag of that session. -/
theorem mark_completed_by_index_spec_witness :
    (mark_completed_by_index
        [((3 : Int), [{ subject := "Math", classDate := 10, classTime := 480,
                        topic := "Class 1 preparation", completed := false,
                        location := "", desiredStudyDt := none }])] 3 0).1 = true ∧
    lookupList (mark_completed_by_index
        [((3 : Int), [{ subject := "Math", classDate := 10, classTime := 480,
                        topic := "Class 1 preparation", completed := false,
                        location := "", desiredStudyDt := none }])] 3 0).2 3 =
      [{ subject := "Math", classDate := 10, classTime := 480,
         topic := "Class 1 preparation", completed := true,
         location := "", desiredStudyDt := none }] := by
  have h := (mark_completed_by_index_spec
    [((3 : Int), [{ subject := "Math", classDate := 10, classTime := 480,
                    topic := "Class 1 preparation", completed := false,
                    location := "", desiredStudyDt := none }])] 3 0).1
    (by decide)
  refine ⟨h.1, ?_⟩
  rw [h.2.1]
  decide

/-- C10: toggling the same in-range (study date, index) twice returns
success both times and restores the plan exactly: every field of every
session, the `completed` flag included, is back to its value before the
first call. -/
theorem mark_completed_by_index_involutive (plan : Plan) (d : Int) (i : Nat)
    (h : containsKey plan d = true ∧ i < (lookupList plan d).length) :
    (mark_completed_by_index plan d i).1 = true ∧
    (mark_completed_by_index (mark_completed_by_index plan d i).2 d i).1 = true ∧
    (mark_completed_by_index (mark_completed_by_index plan d i).2 d i).2 = plan := by
  have h1 : mark_completed_by_index plan d i = (true, planModify plan d i) := by
    simp only [mark_completed_by_index, if_pos h]
  have hcond2 : containsKey (planModify plan d i) d = true ∧
      i < (lookupList (planModify plan d i) d).length := by
    constructor
    · rw [containsKey_planModify]; exact h.1
    · rw [lookupList_planModify_self, listModify_length]; exact h.2
  have h2 : mark_completed_by_index (planModify plan d i) d i =
      (true, planModify (planModify plan d i) d i) := by
    simp only [mark_completed_by_index, if_pos hcond2]
  have h1b : (mark_completed_by_index plan d i).2 = planModify plan d i := by
    rw [h1]
  refine ⟨by rw [h1], ?_, ?_⟩
  · rw [h1b, h2]
  · rw [h1b, h2]
    exact planModify_planModify plan d i

/-- Concrete instance of `mark_completed_by_index_involutive` on the
one-session demo plan. -/
theorem mark_completed_by_index_involutive_witness :
    (mark_completed_by_index (mark_completed_by_index
        [((3 : Int), [{ subject := "Math", classDate := 10, classTime := 480,
                        topic := "Class 1 preparation", completed := false,
                        location := "", desiredStudyDt := none }])] 3 0).2 3 0).2 =
      [((3 : Int), [{ subject := "Math", classDate := 10, classTime := 480,
                      topic := "Class 1 preparation", completed := false,
                      location := "", desiredStudyDt := none }])] :=
  (mark_completed_by_index_involutive
    [((3 : Int), [{ subject := "Math", classDate := 10, classTime := 480,
                    topic := "Class 1 preparation", completed := false,
                    location := "", desiredStudyDt := none }])] 3 0
    (by decide)).2.2

/-- Python `datetime.now().replace(hour=6, minute=0, second=0, microsecond=0)`
in the minute model: 06:00 on the current day. -/
def today0600 (now : Int) : Int :=
  (now.fdiv 1440) * 1440 + 360

/-- The completed-sessions dictionary built by `generate_balanced_study_plan`
lines 99-107 from one day's session list: keep the first completed session
for every `(subject, class_date)` key. -/
def collectFromSessions :
    List ((String × Int) × Session) → List Session → List ((String × Int) × Session)
  | acc, [] => acc
  | acc, s :: ss =>
      collectFromSessions
        (if s.completed = true ∧ lookupEntry acc (s.subject, s.classDate) = none
         then acc ++ [((s.subject, s.classDate), s)] else acc) ss

/-- Fold `collectFromSessions` over the whole prior plan, in dictionary
iteration order. -/
def collectFromPlan :
    List ((String × Int) × Session) → Plan → List ((String × Int) × Session)
  | acc, [] => acc
  | acc, (_, ss) :: rest => collectFromPlan (collectFromSessions acc ss) rest

/-- The `completed_sessions` dictionary of `generate_balanced_study_plan`. -/
def collectCompleted (plan : Plan) : List ((String × Int) × Session) :=
  collectFromPlan [] plan

/-- Lines 99-100: the dictionary is only filled when `skip_completed` is set
and the existing plan is truthy (non-empty). -/
def completedMapFor (priorPlan : Plan) (skipCompleted : Bool) :
    List ((String × Int) × Session) :=
  if skipCompleted = true ∧ priorPlan ≠ [] then collectCompleted priorPlan else []

/-- Lines 113-138 for a single subject: walk its classes with their 1-based
occurrence index, computing the clamped desired study datetime, reusing the
stored completed session when the `(subject, class_date)` key is in the
completed dictionary and building a fresh session otherwise. -/
def buildSubjectSessions (completedMap : List ((String × Int) × Session))
    (now daysAhead : Int) (subject : String) :
    List ClassInfo → Nat → List Session
  | [], _ => []
  | c :: cs, i =>
      let desired0 := (c.startDate - daysAhead) * 1440
      let desired := if desired0 < now then today0600 now else desired0
      let entry :=
        match lookupEntry completedMap (subject, c.startDate) with
        | some e => e.2
        | none =>
            { subject := subject, classDate := c.startDate, classTime := c.startTime,
              topic := "Class " ++ toString (i + 1) ++ " preparation",
              completed := false, location := c.location,
              desiredStudyDt := some desired }
      entry :: buildSubjectSessions completedMap now daysAhead subject cs (i + 1)

/-- The `all_sessions` list before sorting, subjects in dictionary order. -/
def buildAllSessions (completedMap : List ((String × Int) × Session))
    (now daysAhead : Int) : List (String × List ClassInfo) → List Session
  | [] => []
  | (subj, cs) :: rest =>
      buildSubjectSessions completedMap now daysAhead subj cs 0 ++
        buildAllSessions completedMap now daysAhead rest

/-- The key order of `all_sessions.sort(key=lambda x: x['class_date'])`. -/
def sessionLe (a b : Session) : Prop :=
  a.classDate ≤ b.classDate

instance : DecidableRel sessionLe :=
  fun a b => inferInstanceAs (Decidable (a.classDate ≤ b.classDate))

/-- The `all_sessions` list after the stable sort by class date (line 141). -/
def sortedCandidates (subjects : List (String × List ClassInfo))
    (completedMap : List ((String × Int) × Session)) (now daysAhead : Int) :
    List Session :=
  List.insertionSort sessionLe (buildAllSessions completedMap now daysAhead subjects)

/-- Embedding of `min(s['desired_study_dt'] for s in all_sessions)` (line 156); sessions
without the key are skipped, and the `0` default is never reached on the
code path that evaluates the minimum. -/
def earliestDesired (ss : List Session) : Int :=
  match ss.filterMap (fun s => s.desiredStudyDt) with
  | [] => 0
  | x :: xs => xs.foldl min x

/-- Lines 153-157: the single global start day of the consecutive walk. -/
def globalStartDay (sorted : List Session) (now : Int) (skipCompleted : Bool) : Int :=
  if skipCompleted then now.fdiv 1440 else (earliestDesired sorted).fdiv 1440

/-- The while-loop of lines 162-179: place one not-yet-completed session per
consecutive day, skipping completed entries without advancing the day. -/
def scheduleWalk : List Session → Int → Plan
  | [], _ => []
  | s :: rest, d =>
      if s.completed = true then scheduleWalk rest d
      else (d, [s]) :: scheduleWalk rest (d + 1)

/-- Lines 183-189: scan the previous plan for the first study date whose
session list contains the given session by value. -/
def findOriginalDate (prior : Plan) (s : Session) : Option Int :=
  match prior with
  | [] => none
  | (d, ss) :: rest => if s ∈ ss then some d else findOriginalDate rest s

/-- Lines 181-189: re-insert the carried-over completed sessions under the
study date found in the previous plan, silently skipping a session whose
date cannot be found. -/
def reinsertCompleted (prior : Plan) : List Session → Plan → Plan
  | [], b => b
  | s :: rest, b =>
      reinsertCompleted prior rest
        (match findOriginalDate prior s with
         | some d => alistAppend b d s
         | none => b)

/-- Embedding of `StudyScheduler.generate_balanced_study_plan` from `scheduler.py`
(lines 91-192), with `now` the moment of the call. -/
def generate_balanced_study_plan (subjects : List (String × List ClassInfo))
    (priorPlan : Plan) (now daysAhead : Int) (skipCompleted : Bool) : Plan :=
  let completedMap := completedMapFor priorPlan skipCompleted
  let sorted := sortedCandidates subjects completedMap now daysAhead
  if sorted = [] then []
  else
    reinsertCompleted priorPlan (completedMap.map Prod.snd)
      (scheduleWalk sorted (globalStartDay sorted now skipCompleted))

/-- The sessions of a plan at date `d` that are not completed: the newly
scheduled sessions of a regenerated plan, as opposed to carried-over
completed ones. -/
def newAt (p : Plan) (d : Int) : List Session :=
  (lookupList p d).filter (fun s => !s.completed)

theorem planSessions_cons (e : Int × List Session) (rest : Plan) :
    planSessions (e :: rest) = e.2 ++ planSessions rest := by
  simp [planSessions]

theorem newAt_scheduleWalk (ss : List Session) (st d : Int) :
    newAt (scheduleWalk ss st) d =
      (if st ≤ d ∧ d < st + (ss.filter (fun s => !s.completed)).length
       then ((ss.filter (fun s => !s.completed)).drop (d - st).toNat).take 1
       else []) := by
  induction ss generalizing st with
  | nil =>
    simp only [scheduleWalk, List.filter_nil, List.length_nil]
    rw [if_neg (by omega)]
    simp [newAt, lookupList, lookupListD]
  | cons s rest ih =>
    by_cases hc : s.completed = true
    · rw [show scheduleWalk (s :: rest) st = scheduleWalk rest st by
        simp [scheduleWalk, hc]]
      rw [show (s :: rest).filter (fun x => !x.completed) =
          rest.filter (fun x => !x.completed) by simp [hc]]
      exact ih st
    · have hcf : s.completed = false := by
        revert hc; cases s.completed <;> simp
      rw [show scheduleWalk (s :: rest) st = (st, [s]) :: scheduleWalk rest (st + 1) by
        simp [scheduleWalk, hcf]]
      rw [show (s :: rest).filter (fun x => !x.completed) =
          s :: rest.filter (fun x => !x.completed) by simp [hcf]]
      simp only [List.length_cons]
      by_cases hd : d = st
      · subst hd
        rw [show newAt ((d, [s]) :: scheduleWalk rest (d + 1)) d =
            [s].filter (fun x => !x.completed) by
          simp [newAt, lookupList, lookupListD]]
        rw [if_pos (by omega)]
        rw [show ((d : Int) - d).toNat = 0 by omega]
        simp [hcf]
      · have hlk : newAt ((st, [s]) :: scheduleWalk rest (st + 1)) d =
            newAt (scheduleWalk rest (st + 1)) d := by
          unfold newAt lookupList
          simp only [lookupListD]
          rw [if_neg (fun h : st = d => hd h.symm)]
        rw [hlk, ih (st + 1)]
        by_cases hin : st + 1 ≤ d ∧
            d < st + 1 + (rest.filter (fun x => !x.completed)).length
        · rw [if_pos hin, if_pos (by omega)]
          rw [show (d - st).toNat = (d - (st + 1)).toNat + 1 by omega]
          rw [List.drop_succ_cons]
        · rw [if_neg hin, if_neg (by omega)]

theorem collectFromSessions_mem {acc : List ((String × Int) × Session)}
    {ss : List Session} {kv : (String × Int) × Session}
    (h : kv ∈ collectFromSessions acc ss) :
    kv ∈ acc ∨ (kv.2.completed = true ∧ kv.2 ∈ ss) := by
  induction ss generalizing acc with
  | nil => exact Or.inl h
  | cons s rest ih =>
    simp only [collectFromSessions] at h
    rcases ih h with h' | h'
    · by_cases hcond : s.completed = true ∧
          lookupEntry acc (s.subject, s.classDate) = none
      · rw [if_pos hcond] at h'
        rcases List.mem_append.mp h' with h'' | h''
        · exact Or.inl h''
        · right
          have hkv : kv = ((s.subject, s.classDate), s) := by simpa using h''
          rw [hkv]
          exact ⟨hcond.1, List.mem_cons_self s rest⟩
      · rw [if_neg hcond] at h'
        exact Or.inl h'
    · exact Or.inr ⟨h'.1, List.mem_cons_of_mem s h'.2⟩

theorem collectFromPlan_mem {acc : List ((String × Int) × Session)} {p : Plan}
    {kv : (String × Int) × Session} (h : kv ∈ collectFromPlan acc p) :
    kv ∈ acc ∨ (kv.2.completed = true ∧ kv.2 ∈ planSessions p) := by
  induction p generalizing acc with
  | nil => exact Or.inl h
  | cons e rest ih =>
    obtain ⟨d, ss⟩ := e
    simp only [collectFromPlan] at h
    rcases ih h with h' | h'
    · rcases collectFromSessions_mem h' with h'' | h''
      · exact Or.inl h''
      · right
        refine ⟨h''.1, ?_⟩
        rw [planSessions_cons]
        exact List.mem_append_left _ h''.2
    · right
      refine ⟨h'.1, ?_⟩
      rw [planSessions_cons]
      exact List.mem_append_right _ h'.2

theorem collectCompleted_spec {p : Plan} {s : Session}
    (h : s ∈ (collectCompleted p).map Prod.snd) :
    s.completed = true ∧ s ∈ planSessions p := by
  rcases List.mem_map.mp h with ⟨kv, hkv, hs⟩
  rcases collectFromPlan_mem hkv with h' | h'
  · simp at h'
  · rw [← hs]
    exact h'

theorem completedMapFor_completed {p : Plan} {skip : Bool} {s : Session}
    (h : s ∈ (completedMapFor p skip).map Prod.snd) : s.completed = true := by
  by_cases hc : skip = true ∧ p ≠ []
  · rw [completedMapFor, if_pos hc] at h
    exact (collectCompleted_spec h).1
  · rw [completedMapFor, if_neg hc] at h
    simp at h

theorem newAt_alistAppend_completed (b : Plan) (d' : Int) (s : Session)
    (hs : s.completed = true) (d : Int) :
    newAt (alistAppend b d' s) d = newAt b d := by
  unfold newAt lookupList
  rw [lookupListD_alistAppend]
  by_cases hd : d = d'
  · rw [if_pos hd, List.filter_append]
    simp [hs]
  · rw [if_neg hd]

theorem newAt_reinsertCompleted (prior : Plan) (vals : List Session) (b : Plan)
    (d : Int) (h : ∀ s ∈ vals, s.completed = true) :
    newAt (reinsertCompleted prior vals b) d = newAt b d := by
  induction vals generalizing b with
  | nil => rfl
  | cons s rest ih =>
    simp only [reinsertCompleted]
    cases hf : findOriginalDate prior s with
    | none =>
      exact ih b (fun t ht => h t (List.mem_cons_of_mem s ht))
    | some d' =>
      show newAt (reinsertCompleted prior rest (alistAppend b d' s)) d = newAt b d
      rw [ih (alistAppend b d' s) (fun t ht => h t (List.mem_cons_of_mem s ht))]
      exact newAt_alistAppend_completed b d' s (h s (List.mem_cons_self s rest)) d

theorem mem_planSessions_of_mem_lookupList {p : Plan} {d : Int} {s : Session}
    (h : s ∈ lookupList p d) : s ∈ planSessions p := by
  induction p with
  | nil => simp [lookupList, lookupListD] at h
  | cons e rest ih =>
    obtain ⟨k, ss⟩ := e
    rw [planSessions_cons]
    by_cases hk : k = d
    · rw [lookupList, lookupListD, if_pos hk] at h
      exact List.mem_append_left _ h
    · rw [lookupList, lookupListD, if_neg hk] at h
      exact List.mem_append_right _ (ih h)

theorem findOriginalDate_mem {prior : Plan} {s : Session}
    (h : s ∈ planSessions prior) : ∃ d, findOriginalDate prior s = some d := by
  induction prior with
  | nil => simp [planSessions] at h
  | cons e rest ih =>
    obtain ⟨d0, ss⟩ := e
    by_cases hin : s ∈ ss
    · exact ⟨d0, by rw [findOriginalDate, if_pos hin]⟩
    · have hrest : s ∈ planSessions rest := by
        rw [planSessions_cons] at h
        rcases List.mem_append.mp h with h' | h'
        · exact absurd h' hin
        · exact h'
      obtain ⟨d, hd⟩ := ih hrest
      exact ⟨d, by rw [findOriginalDate, if_neg hin]; exact hd⟩

theorem mem_lookupList_alistAppend_self (b : Plan) (d : Int) (s : Session) :
    s ∈ lookupList (alistAppend b d s) d := by
  unfold lookupList
  rw [lookupListD_alistAppend, if_pos rfl]
  exact List.mem_append_right _ (List.mem_singleton_self s)

theorem mem_lookupList_alistAppend (b : Plan) (d' : Int) (v : Session) (d : Int)
    (s : Session) (h : s ∈ lookupList b d) : s ∈ lookupList (alistAppend b d' v) d := by
  unfold lookupList at h ⊢
  rw [lookupListD_alistAppend]
  by_cases hd : d = d'
  · rw [if_pos hd]
    exact List.mem_append_left _ h
  · rw [if_neg hd]
    exact h

theorem mem_lookupList_reinsert_of_mem (prior : Plan) (vals : List Session)
    (b : Plan) (d : Int) (s : Session) (h : s ∈ lookupList b d) :
    s ∈ lookupList (reinsertCompleted prior vals b) d := by
  induction vals generalizing b with
  | nil => exact h
  | cons v rest ih =>
    simp only [reinsertCompleted]
    cases hf : findOriginalDate prior v with
    | none => exact ih b h
    | some d' =>
      show s ∈ lookupList (reinsertCompleted prior rest (alistAppend b d' v)) d
      exact ih (alistAppend b d' v) (mem_lookupList_alistAppend b d' v d s h)

theorem mem_lookupList_reinsert (prior : Plan) (vals : List Session) (b : Plan)
    (s : Session) (d : Int) (hv : s ∈ vals)
    (hf : findOriginalDate prior s = some d) :
    s ∈ lookupList (reinsertCompleted prior vals b) d := by
  induction vals generalizing b with
  | nil => simp at hv
  | cons v rest ih =>
    simp only [reinsertCompleted]
    rcases List.mem_cons.mp hv with h | h
    · subst h
      rw [hf]
      exact mem_lookupList_reinsert_of_mem prior rest _ d s
        (mem_lookupList_alistAppend_self b d s)
    · cases hfv : findOriginalDate prior v with
      | none => exact ih b h
      | some d2 =>
        show s ∈ lookupList (reinsertCompleted prior rest (alistAppend b d2 v)) d
        exact ih (alistAppend b d2 v) h

theorem scheduleWalk_not_completed {ss : List Session} {st : Int} {s : Session}
    (h : s ∈ planSessions (scheduleWalk ss st)) : s.completed = false := by
  induction ss generalizing st with
  | nil => simp [scheduleWalk, planSessions] at h
  | cons t rest ih =>
    by_cases hc : t.completed = true
    · rw [show scheduleWalk (t :: rest) st = scheduleWalk rest st by
        simp [scheduleWalk, hc]] at h
      exact ih h
    · have hcf : t.completed = false := by
        revert hc; cases t.completed <;> simp
      rw [show scheduleWalk (t :: rest) st = (st, [t]) :: scheduleWalk rest (st + 1) by
        simp [scheduleWalk, hcf]] at h
      rw [planSessions_cons] at h
      rcases List.mem_append.mp h with h' | h'
      · have : s = t := by simpa using h'
        rw [this]
        exact hcf
      · exact ih h'

theorem planSessions_alistAppend_cases {b : Plan} {d : Int} {v s : Session}
    (h : s ∈ planSessions (alistAppend b d v)) : s ∈ planSessions b ∨ s = v := by
  induction b with
  | nil =>
    rw [show alistAppend ([] : Plan) d v = [(d, [v])] from rfl, planSessions_cons] at h
    right
    simpa [planSessions] using h
  | cons e rest ih =>
    obtain ⟨k, ss⟩ := e
    by_cases hk : k = d
    · rw [show alistAppend ((k, ss) :: rest) d v = (k, ss ++ [v]) :: rest by
        simp [alistAppend, hk], planSessions_cons] at h
      rcases List.mem_append.mp h with h' | h'
      · rcases List.mem_append.mp h' with h'' | h''
        · exact Or.inl (by rw [planSessions_cons]; exact List.mem_append_left _ h'')
        · exact Or.inr (by simpa using h'')
      · exact Or.inl (by rw [planSessions_cons]; exact List.mem_append_right _ h')
    · rw [show alistAppend ((k, ss) :: rest) d v = (k, ss) :: alistAppend rest d v by
        simp [alistAppend, hk], planSessions_cons] at h
      rcases List.mem_append.mp h with h' | h'
      · exact Or.inl (by rw [planSessions_cons]; exact List.mem_append_left _ h')
      · rcases ih h' with h'' | h''
        · exact Or.inl (by rw [planSessions_cons]; exact List.mem_append_right _ h'')
        · exact Or.inr h''

theorem not_mem_planSessions_reinsert (prior : Plan) (vals : List Session)
    (b : Plan) (s : Session) (hf : findOriginalDate prior s = none)
    (hb : s ∉ planSessions b) :
    s ∉ planSessions (reinsertCompleted prior vals b) := by
  induction vals generalizing b with
  | nil => exact hb
  | cons v rest ih =>
    simp only [reinsertCompleted]
    cases hfv : findOriginalDate prior v with
    | none => exact ih b hb
    | some d =>
      show s ∉ planSessions (reinsertCompleted prior rest (alistAppend b d v))
      apply ih
      intro hmem
      rcases planSessions_alistAppend_cases hmem with h' | h'
      · exact hb h'
      · rw [h'] at hf
        rw [hfv] at hf
        exact Option.noConfusion hf

/-- C1: for any input (in particular any non-empty candidate collection),
balanced generation places exactly one newly scheduled (not-completed)
session on each consecutive calendar day starting at the global start date:
at every date `d` the not-completed sessions of the generated plan are
exactly one session (the Nth of the class-date-sorted not-yet-completed
sequence) when `d` lies in the consecutive window, and none otherwise — so
no day of the window is empty and no day gets two newly scheduled
sessions. -/
theorem generate_balanced_one_new_session_per_day
    (subjects : List (String × List ClassInfo)) (priorPlan : Plan)
    (now daysAhead : Int) (skipCompleted : Bool) (d : Int) :
    newAt (generate_balanced_study_plan subjects priorPlan now daysAhead skipCompleted) d =
      (let sorted :=
        sortedCandidates subjects (completedMapFor priorPlan skipCompleted) now daysAhead
       let act := sorted.filter (fun s => !s.completed)
       let start := globalStartDay sorted now skipCompleted
       if start ≤ d ∧ d < start + act.length then (act.drop (d - start).toNat).take 1
       else []) := by
  simp only [generate_balanced_study_plan]
  by_cases hs : sortedCandidates subjects
      (completedMapFor priorPlan skipCompleted) now daysAhead = []
  · rw [if_pos hs, hs]
    rw [show newAt ([] : Plan) d = [] from rfl]
    rw [if_neg (by simp)]
  · rw [if_neg hs]
    rw [newAt_reinsertCompleted priorPlan _ _ d
      (fun s hsm => completedMapFor_completed hsm)]
    exact newAt_scheduleWalk _ _ d

/-- Demo completed session for the concrete witnesses: a `Math` class on day
10, marked completed, stored in the prior plan under study date 5. -/
def demoCompleted : Session :=
  { subject := "Math", classDate := 10, classTime := 480,
    topic := "Class 1 preparation", completed := true, location := "",
    desiredStudyDt := none }

/-- Demo prior plan holding the completed session under day 5. -/
def demoPrior : Plan := [((5 : Int), [demoCompleted])]

/-- Demo subject grouping with a single `Math` class on day 10. -/
def demoSubjects : List (String × List ClassInfo) :=
  [("Math", [{ subject := "Math", startDate := 10, startTime := 480,
               location := "", description := "" }])]

/-- C3 counterexample: a plain generation call (`skip_completed=False`)
rebuilds the plan from the class list alone, so a session flagged completed
in the prior plan is *not* present in the new plan — refuting the claim
that every generation call preserves completed sessions by value. -/
theorem generate_plain_generation_drops_completed :
    demoCompleted.completed = true ∧
    demoCompleted ∈ planSessions demoPrior ∧
    demoCompleted ∉ planSessions
        (generate_balanced_study_plan demoSubjects demoPrior 0 2 false) := by
  refine ⟨rfl, by decide, by decide⟩

/-- C3 (amended): on a reschedule call (`skip_completed=True`) with a
non-empty candidate list, every completed session retained by the
collection step of lines 99-107 (the first completed session of each
`(subject, class date)` key) is still present by value in the regenerated
plan. -/
theorem generate_skip_preserves_collected_completed
    (subjects : List (String × List ClassInfo)) (priorPlan : Plan)
    (now daysAhead : Int) (s : Session)
    (hs : s ∈ (collectCompleted priorPlan).map Prod.snd)
    (hne : sortedCandidates subjects (completedMapFor priorPlan true) now daysAhead ≠ []) :
    s ∈ planSessions (generate_balanced_study_plan subjects priorPlan now daysAhead true) := by
  have hcc := collectCompleted_spec hs
  have hprior : priorPlan ≠ [] := by
    intro hnil
    rw [hnil] at hcc
    exact absurd hcc.2 (by simp [planSessions])
  have hmap : completedMapFor priorPlan true = collectCompleted priorPlan := by
    rw [completedMapFor, if_pos ⟨rfl, hprior⟩]
  obtain ⟨d, hf⟩ := findOriginalDate_mem hcc.2
  simp only [generate_balanced_study_plan]
  rw [if_neg hne]
  apply mem_planSessions_of_mem_lookupList (d := d)
  apply mem_lookupList_reinsert
  · rw [hmap]
    exact hs
  · exact hf

/-- Concrete instance of `generate_skip_preserves_collected_completed` on
the demo data. -/
theorem generate_skip_preserves_collected_completed_witness :
    demoCompleted ∈ planSessions
        (generate_balanced_study_plan demoSubjects demoPrior 0 2 true) :=
  generate_skip_preserves_collected_completed demoSubjects demoPrior 0 2
    demoCompleted (by decide) (by decide)

/-- Demo completed session for the C2 counterexample. -/
def demoC2Completed : Session :=
  { subject := "Physics", classDate := 12, classTime := 600,
    topic := "Class 1 preparation", completed := true, location := "",
    desiredStudyDt := none }

/-- C2 counterexample: rescheduling with `skip_completed=True` while the
class list yields zero candidate sessions hits the early
`if not all_sessions: return {}` (lines 143-146), so a completed session of
the prior plan does not survive — refuting the unconditional claim. -/
theorem reschedule_empty_candidates_drops_completed :
    demoC2Completed.completed = true ∧
    demoC2Completed ∈ planSessions [((4 : Int), [demoC2Completed])] ∧
    generate_balanced_study_plan [] [((4 : Int), [demoC2Completed])] 0 2 true = [] := by
  refine ⟨rfl, by decide, by decide⟩

/-- C2 (amended): on a reschedule call with at least one candidate session,
every completed session retained by the collection step keeps its
`completed=true` flag and reappears under its original study date — the
first prior-plan date whose list contains it — and it is not assigned any
day by the fresh consecutive-day walk. -/
theorem reschedule_keeps_completed_at_original_date
    (subjects : List (String × List ClassInfo)) (priorPlan : Plan)
    (now daysAhead : Int) (s : Session)
    (hs : s ∈ (collectCompleted priorPlan).map Prod.snd)
    (hne : sortedCandidates subjects (completedMapFor priorPlan true) now daysAhead ≠ []) :
    ∃ d, findOriginalDate priorPlan s = some d ∧
      s.completed = true ∧
      s ∈ lookupList (generate_balanced_study_plan subjects priorPlan now daysAhead true) d ∧
      s ∉ planSessions (scheduleWalk
          (sortedCandidates subjects (completedMapFor priorPlan true) now daysAhead)
          (globalStartDay
            (sortedCandidates subjects (completedMapFor priorPlan true) now daysAhead)
            now true)) := by
  have hcc := collectCompleted_spec hs
  have hprior : priorPlan ≠ [] := by
    intro hnil
    rw [hnil] at hcc
    exact absurd hcc.2 (by simp [planSessions])
  have hmap : completedMapFor priorPlan true = collectCompleted priorPlan := by
    rw [completedMapFor, if_pos ⟨rfl, hprior⟩]
  obtain ⟨d, hf⟩ := findOriginalDate_mem hcc.2
  refine ⟨d, hf, hcc.1, ?_, ?_⟩
  · simp only [generate_balanced_study_plan]
    rw [if_neg hne]
    apply mem_lookupList_reinsert
    · rw [hmap]
      exact hs
    · exact hf
  · intro hmem
    have hfalse := scheduleWalk_not_completed hmem
    rw [hcc.1] at hfalse
    exact Bool.noConfusion hfalse

/-- Concrete instance of `reschedule_keeps_completed_at_original_date`: the
demo completed session reappears under its prior study date 5. -/
theorem reschedule_keeps_completed_at_original_date_witness :
    findOriginalDate demoPrior demoCompleted = some 5 ∧
    demoCompleted ∈ lookupList
        (generate_balanced_study_plan demoSubjects demoPrior 0 2 true) 5 := by
  obtain ⟨d, hd, hc, hm, hw⟩ :=
    reschedule_keeps_completed_at_original_date demoSubjects demoPrior 0 2
      demoCompleted (by decide) (by decide)
  have h5 : some d = some (5 : Int) := hd.symm.trans (by decide)
  injection h5 with h5'
  subst h5'
  exact ⟨hd, hm⟩

/-- C6: during the re-insertion step (lines 181-189), a carried-over
completed session whose original study date cannot be found by scanning the
previous plan is dropped: it appears nowhere in the regenerated plan (the
walk output plus re-insertions). -/
theorem reinsert_drops_unfound_completed (sessions : List Session) (start : Int)
    (vals : List Session) (prior : Plan) (s : Session)
    (hv : s ∈ vals) (hc : s.completed = true)
    (hf : findOriginalDate prior s = none) :
    s ∉ planSessions (reinsertCompleted prior vals (scheduleWalk sessions start)) := by
  apply not_mem_planSessions_reinsert prior vals _ s hf
  intro hmem
  have hfalse := scheduleWalk_not_completed hmem
  rw [hc] at hfalse
  exact Bool.noConfusion hfalse

/-- Demo completed session for the C6 witness. -/
def demoC6 : Session :=
  { subject := "Chem", classDate := 20, classTime := 540,
    topic := "Class 1 preparation", completed := true, location := "",
    desiredStudyDt := none }

/-- Concrete instance of `reinsert_drops_unfound_completed`: with an empty
previous plan the scan finds nothing and the session is dropped. -/
theorem reinsert_drops_unfound_completed_witness :
    demoC6 ∉ planSessions (reinsertCompleted [] [demoC6] (scheduleWalk [] 0)) :=
  reinsert_drops_unfound_completed [] 0 [demoC6] [] demoC6 (by decide) rfl rfl

/-- Python `date.weekday()` in the day-number model: day 0 is a Monday, so
the weekday index (Monday = 0 .. Sunday = 6) is the residue mod 7. -/
def weekday (d : Int) : Int :=
  d.emod 7

/-- The dictionary-building loop shared by both `get_weekly_view` versions:
for each date of the list, copy the plan entry when the date is a key. -/
def collectDates (plan : Plan) : List Int → Plan
  | [] => []
  | d :: ds =>
      match lookupEntry plan d with
      | some e => e :: collectDates plan ds
      | none => collectDates plan ds

/-- Embedding of `StudyScheduler.get_weekly_view` from `scheduler.py` (lines 242-254):
snap the anchor back by its weekday to the Monday of its week, then keep
the plan entries of the 7 consecutive dates from that Monday. -/
def get_weekly_view (plan : Plan) (anchor : Int) : Plan :=
  collectDates plan ((List.range 7).map (fun i : Nat => (anchor - weekday anchor) + (i : Int)))

namespace StudySchedulerV1

/-- Embedding of `StudyScheduler.get_weekly_view` from `study_scheduler.py`
(lines 161-174): unlike the enhanced version there is no Monday snap; the 7
consecutive dates start at the anchor itself. -/
def get_weekly_view (plan : Plan) (anchor : Int) : Plan :=
  collectDates plan ((List.range 7).map (fun i : Nat => anchor + (i : Int)))

end StudySchedulerV1

theorem lookupEntry_collectDates_of_not_mem (plan : Plan) (ds : List Int)
    (d : Int) (h : d ∉ ds) : lookupEntry (collectDates plan ds) d = none := by
  induction ds with
  | nil => rfl
  | cons d0 rest ih =>
    have hd0 : d ≠ d0 := fun he => h (he ▸ List.mem_cons_self d0 rest)
    have hrest : d ∉ rest := fun he => h (List.mem_cons_of_mem d0 he)
    simp only [collectDates]
    cases he : lookupEntry plan d0 with
    | none => exact ih hrest
    | some e =>
      show lookupEntry (e :: collectDates plan rest) d = none
      simp only [lookupEntry]
      rw [if_neg (by rw [lookupEntry_key he]; exact fun hh => hd0 hh.symm)]
      exact ih hrest

theorem lookupEntry_collectDates_of_mem (plan : Plan) (ds : List Int) (d : Int)
    (hnd : ds.Nodup) (h : d ∈ ds) :
    lookupEntry (collectDates plan ds) d = lookupEntry plan d := by
  induction ds with
  | nil => simp at h
  | cons d0 rest ih =>
    rcases List.mem_cons.mp h with he | he
    · subst he
      simp only [collectDates]
      cases hle : lookupEntry plan d with
      | none =>
        have hnotin : d ∉ rest := (List.nodup_cons.mp hnd).1
        rw [lookupEntry_collectDates_of_not_mem plan rest d hnotin]
      | some e =>
        show lookupEntry (e :: collectDates plan rest) d = some e
        simp only [lookupEntry]
        rw [if_pos (lookupEntry_key hle)]
    · have hd0 : d ≠ d0 := fun hdd => (List.nodup_cons.mp hnd).1 (hdd ▸ he)
      simp only [collectDates]
      cases hle : lookupEntry plan d0 with
      | none => exact ih (List.nodup_cons.mp hnd).2 he
      | some e =>
        show lookupEntry (e :: collectDates plan rest) d = lookupEntry plan d
        simp only [lookupEntry]
        rw [if_neg (by rw [lookupEntry_key hle]; exact fun hh => hd0 hh.symm)]
        exact ih (List.nodup_cons.mp hnd).2 he

/-- C4 (amended, `scheduler.py` behaviour): the weekly view is exactly the
restriction of the plan to the 7 consecutive dates starting at the Monday
of the anchor's week — a date's entry is present in the view if and only if
the date lies in that window and the plan has it, unchanged. -/
theorem get_weekly_view_spec (plan : Plan) (anchor : Int) (d : Int) :
    lookupEntry (get_weekly_view plan anchor) d =
      if anchor - weekday anchor ≤ d ∧ d < anchor - weekday anchor + 7
      then lookupEntry plan d else none := by
  simp only [get_weekly_view]
  by_cases hin : anchor - weekday anchor ≤ d ∧ d < anchor - weekday anchor + 7
  · rw [if_pos hin]
    apply lookupEntry_collectDates_of_mem
    · refine List.Nodup.map ?_ (List.nodup_range 7)
      intro a b hab
      dsimp at hab
      omega
    · have hex : ∃ i : Nat, i < 7 ∧ (anchor - weekday anchor) + (i : Int) = d :=
        ⟨(d - (anchor - weekday anchor)).toNat, by omega, by omega⟩
      rcases hex with ⟨i, hi7, hieq⟩
      exact List.mem_map.mpr ⟨i, List.mem_range.mpr hi7, hieq⟩
  · rw [if_neg hin]
    apply lookupEntry_collectDates_of_not_mem
    intro hmem
    rcases List.mem_map.mp hmem with ⟨i, hir, hieq⟩
    have hi7 := List.mem_range.mp hir
    omega

/-- Demo session for the C4 counterexample. -/
def demoWeekSession : Session :=
  { subject := "Math", classDate := 3, classTime := 480,
    topic := "Class 1 preparation", completed := false, location := "",
    desiredStudyDt := none }

/-- Demo plan with a single entry on day 0, a Monday. -/
def demoWeekPlan : Plan := [((0 : Int), [demoWeekSession])]

/-- C4 counterexample: anchored on day 2 (a Wednesday), the Monday of that
week is day 0 and `demoWeekPlan` has an entry there, yet the
`study_scheduler.py` weekly view — which starts at the anchor itself
instead of computing the Monday — returns nothing, so it is not the subset
of the plan over the 7 dates from Monday that the claim describes. -/
theorem get_weekly_view_v1_misses_monday :
    StudySchedulerV1.get_weekly_view demoWeekPlan 2 = [] ∧
    (2 : Int) - weekday 2 = 0 ∧
    lookupEntry demoWeekPlan 0 = some (0, [demoWeekSession]) := by
  refine ⟨by decide, by decide, by decide⟩

/-- Minimal YAML value tree for the plan file: `None`, strings, sequences
and string-keyed mappings. -/
inductive Yaml where
  | null : Yaml
  | str : String → Yaml
  | seq : List Yaml → Yaml
  | map : List (String × Yaml) → Yaml

/-- Python truthiness of the modelled YAML values: `None`, the empty
string, the empty list and the empty mapping are falsy. -/
def Yaml.truthy : Yaml → Bool
  | .null => false
  | .str s => !(s == "")
  | .seq xs => !xs.isEmpty
  | .map kvs => !kvs.isEmpty

/-- Python `data['study_plan']` on a parsed mapping. -/
def yamlGet (kvs : List (String × Yaml)) (k : String) : Option Yaml :=
  (lookupEntry kvs k).map Prod.snd

/-- Embedding of `StudyScheduler.load_plan` from `scheduler.py` (lines 209-223), applied
to the parsed file content: `none` models empty content (`yaml.safe_load`
returning `None`), `some kvs` a top-level mapping.  The result is the raw
value stored into `self.study_plan`. -/
def load_plan (data : Option (List (String × Yaml))) : Yaml :=
  match data with
  | none => Yaml.map []
  | some kvs =>
      if kvs.isEmpty then Yaml.map []
      else
        match yamlGet kvs "study_plan" with
        | some v => if v.truthy then v else Yaml.map []
        | none => Yaml.map kvs

namespace StudySchedulerV1

/-- Embedding of `StudyScheduler.load_plan` from `study_scheduler.py` (lines 141-148):
`'study_plan' in data` raises a `TypeError` when the parsed content is
`None`; there is no legacy fallback — without the key the in-memory plan is
returned unchanged; a present key is stored without the `or` guard. -/
def load_plan (prior : Yaml) (data : Option (List (String × Yaml))) :
    Except String Yaml :=
  match data with
  | none => Except.error "TypeError: argument of type NoneType is not iterable"
  | some kvs =>
      match yamlGet kvs "study_plan" with
      | some v => Except.ok v
      | none => Except.ok prior

end StudySchedulerV1

/-- C5 (amended, `scheduler.py` behaviour): empty parsed content or an
empty top-level mapping yields the empty plan; a top-level `study_plan`
key makes that substructure the plan, except that a falsy substructure
(null or empty) yields the empty plan via the `or` guard; without the key
the whole parsed mapping becomes the plan. -/
theorem load_plan_spec :
    load_plan none = Yaml.map [] ∧
    load_plan (some []) = Yaml.map [] ∧
    (∀ kvs v, kvs ≠ [] → yamlGet kvs "study_plan" = some v →
      load_plan (some kvs) = (if v.truthy then v else Yaml.map [])) ∧
    (∀ kvs, kvs ≠ [] → yamlGet kvs "study_plan" = none →
      load_plan (some kvs) = Yaml.map kvs) := by
  refine ⟨rfl, rfl, ?_, ?_⟩
  · intro kvs v hne hget
    simp only [load_plan]
    rw [if_neg (by simpa using hne), hget]
  · intro kvs hne hget
    simp only [load_plan]
    rw [if_neg (by simpa using hne), hget]

/-- Demo parsed plan file with metadata and a `study_plan` section. -/
def demoPlanYaml : List (String × Yaml) :=
  [("metadata", Yaml.str "meta"),
   ("study_plan", Yaml.map [("2025-03-08", Yaml.seq [])])]

/-- Concrete instance of `load_plan_spec`: the demo file's `study_plan`
substructure becomes the plan. -/
theorem load_plan_spec_witness :
    load_plan (some demoPlanYaml) = Yaml.map [("2025-03-08", Yaml.seq [])] := by
  have h := load_plan_spec.2.2.1 demoPlanYaml
    (Yaml.map [("2025-03-08", Yaml.seq [])]) (by simp [demoPlanYaml]) rfl
  rw [h]
  rfl

/-- C5 counterexample: `study_scheduler.py`'s `load_plan` has no legacy
fallback — on a parsed file without a `study_plan` key it returns the
in-memory plan unchanged (here the empty mapping) instead of treating the
whole structure as the plan — and on empty content it raises a `TypeError`
instead of yielding an empty plan. -/
theorem load_plan_v1_no_legacy_fallback :
    StudySchedulerV1.load_plan (Yaml.map [])
        (some [("2025-03-08", Yaml.seq [])]) = Except.ok (Yaml.map []) ∧
    Yaml.map [] ≠ Yaml.map [("2025-03-08", Yaml.seq [])] ∧
    StudySchedulerV1.load_plan (Yaml.map []) none =
      Except.error "TypeError: argument of type NoneType is not iterable" := by
  refine ⟨rfl, ?_, rfl⟩
  intro h
  injection h with h'
  exact List.noConfusion h'

/-- The normalized subject name: everything before the first `::` of the
raw subject field, trimmed of surrounding whitespace (line 82,
`row['Betreff'].split('::')[0].strip()`). -/
def subjectKey (s : String) : String :=
  ((s.splitOn "::").headD "").trim

/-- Row acceptance of `load_classes` (lines 64-86): skip rows with a falsy
subject or start-date cell, then parse date and time, skipping the row when
either parse fails.  The parsers `pd` and `pt` stand for
`datetime.strptime` with the fixed formats day.month.year and
hour:minute:second. -/
def rowRecord (pd : String → Option Int) (pt : String → Option Nat) (r : Row) :
    Option ClassInfo :=
  if r.betreff = "" ∨ r.beginntAm = "" then none
  else
    match pd r.beginntAm, pt r.beginntUm with
    | some d, some t => some ⟨r.betreff, d, t, r.ort, r.beschreibung⟩
    | _, _ => none

/-- The records of the valid rows, in original row order. -/
def validRecords (pd : String → Option Int) (pt : String → Option Nat)
    (rows : List Row) : List ClassInfo :=
  rows.filterMap (rowRecord pd pt)

/-- The `defaultdict(list)` grouping loop of `load_classes` (lines 64-86). -/
def groupRows (pd : String → Option Int) (pt : String → Option Nat) :
    List Row → List (String × List ClassInfo) → List (String × List ClassInfo)
  | [], g => g
  | r :: rs, g =>
      match rowRecord pd pt r with
      | some c => groupRows pd pt rs (alistAppend g (subjectKey c.subject) c)
      | none => groupRows pd pt rs g

/-- The comparison key of
`self.subjects[subject].sort(key=lambda x: x['start_date'])` (lines 88-89). -/
def classLe (a b : ClassInfo) : Prop :=
  a.startDate ≤ b.startDate

instance : DecidableRel classLe :=
  fun a b => inferInstanceAs (Decidable (a.startDate ≤ b.startDate))

instance : IsTotal ClassInfo classLe :=
  ⟨fun a b => Int.le_total a.startDate b.startDate⟩

instance : IsTrans ClassInfo classLe :=
  ⟨fun _ _ _ h1 h2 => le_trans h1 h2⟩

/-- Embedding of `StudyScheduler.load_classes` (lines 43-90 of `scheduler.py`, identically
in `study_scheduler.py`): group the valid rows by normalized subject in
first-appearance order, then sort each subject's list stably by start
date. -/
def load_classes (pd : String → Option Int) (pt : String → Option Nat)
    (rows : List Row) : List (String × List ClassInfo) :=
  (groupRows pd pt rows []).map (fun e => (e.1, List.insertionSort classLe e.2))

theorem lookupListD_groupRows (pd : String → Option Int)
    (pt : String → Option Nat) (rows : List Row)
    (g : List (String × List ClassInfo)) (k : String) :
    lookupListD (groupRows pd pt rows g) k =
      lookupListD g k ++ (validRecords pd pt rows).filter
        (fun c => decide (subjectKey c.subject = k)) := by
  induction rows generalizing g with
  | nil => simp [groupRows, validRecords]
  | cons r rs ih =>
    simp only [groupRows, validRecords]
    cases hr : rowRecord pd pt r with
    | none =>
      rw [show List.filterMap (rowRecord pd pt) (r :: rs) =
          List.filterMap (rowRecord pd pt) rs by
        simp [List.filterMap_cons, hr]]
      exact ih g
    | some c =>
      rw [show List.filterMap (rowRecord pd pt) (r :: rs) =
          c :: List.filterMap (rowRecord pd pt) rs by
        simp [List.filterMap_cons, hr]]
      show lookupListD (groupRows pd pt rs (alistAppend g (subjectKey c.subject) c)) k = _
      rw [ih (alistAppend g (subjectKey c.subject) c), lookupListD_alistAppend]
      by_cases hk : k = subjectKey c.subject
      · rw [if_pos hk, List.filter_cons, if_pos (by simp [hk])]
        simp [validRecords]
      · rw [if_neg hk, List.filter_cons,
          if_neg (by simp; exact fun h => hk h.symm)]
        rfl

theorem lookupListD_map_sort (m : List (String × List ClassInfo)) (k : String) :
    lookupListD (m.map (fun e => (e.1, List.insertionSort classLe e.2))) k =
      List.insertionSort classLe (lookupListD m k) := by
  induction m with
  | nil => rfl
  | cons e rest ih =>
    obtain ⟨k0, vs⟩ := e
    by_cases hk : k0 = k
    · simp [lookupListD, hk]
    · simp [lookupListD, hk, ih]

theorem lookupListD_load_classes (pd : String → Option Int)
    (pt : String → Option Nat) (rows : List Row) (k : String) :
    lookupListD (load_classes pd pt rows) k =
      List.insertionSort classLe ((validRecords pd pt rows).filter
        (fun c => decide (subjectKey c.subject = k))) := by
  unfold load_classes
  rw [lookupListD_map_sort, lookupListD_groupRows pd pt rows [] k]
  rfl

theorem filter_orderedInsert_of_neg (p : ClassInfo → Bool) (a : ClassInfo)
    (l : List ClassInfo) (ha : p a = false) :
    (List.orderedInsert classLe a l).filter p = l.filter p := by
  induction l with
  | nil => simp [List.orderedInsert, ha]
  | cons b bs ih =>
    by_cases hab : classLe a b
    · rw [List.orderedInsert_of_le classLe bs hab]
      simp [ha]
    · rw [show List.orderedInsert classLe a (b :: bs) =
          b :: List.orderedInsert classLe a bs by
        simp [List.orderedInsert, hab]]
      simp only [List.filter_cons, ih]

theorem filter_orderedInsert_of_pos (dte : Int) (a : ClassInfo)
    (l : List ClassInfo) (ha : a.startDate = dte) :
    (List.orderedInsert classLe a l).filter (fun c => decide (c.startDate = dte)) =
      a :: l.filter (fun c => decide (c.startDate = dte)) := by
  induction l with
  | nil => simp [List.orderedInsert, ha]
  | cons b bs ih =>
    by_cases hab : classLe a b
    · rw [List.orderedInsert_of_le classLe bs hab]
      simp [ha]
    · have hbd : ¬ (b.startDate = dte) := by
        intro hbdte
        exact hab (by unfold classLe; omega)
      rw [show List.orderedInsert classLe a (b :: bs) =
          b :: List.orderedInsert classLe a bs by
        simp [List.orderedInsert, hab]]
      simp only [List.filter_cons]
      rw [if_neg (by simpa using hbd), if_neg (by simpa using hbd), ih]

theorem filter_insertionSort_date (dte : Int) (l : List ClassInfo) :
    (List.insertionSort classLe l).filter (fun c => decide (c.startDate = dte)) =
      l.filter (fun c => decide (c.startDate = dte)) := by
  induction l with
  | nil => rfl
  | cons a as ih =>
    show (List.orderedInsert classLe a (List.insertionSort classLe as)).filter _ = _
    by_cases ha : a.startDate = dte
    · rw [filter_orderedInsert_of_pos dte a _ ha, ih,
        List.filter_cons, if_pos (by simpa using ha)]
    · rw [filter_orderedInsert_of_neg _ a _ (by simpa using ha), ih,
        List.filter_cons, if_neg (by simpa using ha)]

/-- C7: every valid class record is placed in exactly the subject group of
its normalized subject key; within each group the records are
non-decreasing by start date; and the records of a group with any fixed
start date are precisely the valid records with that key and date, in
original row order (stability of the sort). -/
theorem load_classes_spec (pd : String → Option Int) (pt : String → Option Nat)
    (rows : List Row) :
    (∀ c, c ∈ validRecords pd pt rows →
      c ∈ lookupListD (load_classes pd pt rows) (subjectKey c.subject) ∧
      ∀ k, k ≠ subjectKey c.subject →
        c ∉ lookupListD (load_classes pd pt rows) k) ∧
    (∀ k, List.Pairwise classLe (lookupListD (load_classes pd pt rows) k)) ∧
    (∀ k dte, (lookupListD (load_classes pd pt rows) k).filter
        (fun c => decide (c.startDate = dte)) =
      ((validRecords pd pt rows).filter
          (fun c => decide (subjectKey c.subject = k))).filter
        (fun c => decide (c.startDate = dte))) := by
  refine ⟨?_, ?_, ?_⟩
  · intro c hc
    constructor
    · rw [lookupListD_load_classes]
      rw [List.mem_insertionSort]
      exact List.mem_filter.mpr ⟨hc, by simp⟩
    · intro k hk hmem
      rw [lookupListD_load_classes, List.mem_insertionSort] at hmem
      have h2 := (List.mem_filter.mp hmem).2
      have h3 : subjectKey c.subject = k := by simpa using h2
      exact hk h3.symm
  · intro k
    rw [lookupListD_load_classes]
    exact List.sorted_insertionSort classLe _
  · intro k dte
    rw [lookupListD_load_classes, filter_insertionSort_date]

/-- Demo row for the C7 witness: the raw subject `Math :: Lecture`
normalizes to the group key `Math`. -/
def demoRow : Row :=
  { betreff := "Math :: Lecture", beginntAm := "10.03.2025",
    beginntUm := "08:00:00", ort := "H1", beschreibung := "" }

/-- Concrete instance of `load_classes_spec`: the single valid demo row
lands in the `Math` group. -/
theorem load_classes_spec_witness :
    ({ subject := "Math :: Lecture", startDate := 795, startTime := 480,
       location := "H1", description := "" } : ClassInfo) ∈
      lookupListD (load_classes (fun _ => some 795) (fun _ => some 480)
        [demoRow]) (subjectKey "Math :: Lecture") := by
  have h := (load_classes_spec (fun _ => some 795) (fun _ => some 480)
    [demoRow]).1
    ({ subject := "Math :: Lecture", startDate := 795, startTime := 480,
       location := "H1", description := "" } : ClassInfo) (by decide)
  exact h.1

/-- The result record of `get_progress`.  The float expression
`completed_sessions / total_sessions * 100` is modelled over `Rat`. -/
structure Progress where
  totalSessions : Nat
  completedSessions : Nat
  completionRate : Rat
  subjectProgress : List (String × Nat × Nat)

/-- The per-subject tally update of `get_progress` (ensure the key exists,
bump its total, bump its completed count when the session is flagged). -/
def bumpSubject : List (String × Nat × Nat) → String → Bool → List (String × Nat × Nat)
  | [], subj, comp => [(subj, 1, if comp then 1 else 0)]
  | (k, t, c) :: rest, subj, comp =>
      if k = subj then (k, t + 1, if comp then c + 1 else c) :: rest
      else (k, t, c) :: bumpSubject rest subj comp

/-- The inner loop of `get_progress` over one day's sessions. -/
def tallySessions :
    List Session → Nat × Nat × List (String × Nat × Nat) →
      Nat × Nat × List (String × Nat × Nat)
  | [], acc => acc
  | s :: ss, (t, c, sp) =>
      tallySessions ss
        (t + 1, (if s.completed then c + 1 else c),
          bumpSubject sp s.subject s.completed)

/-- The outer loop of `get_progress` over the plan's days. -/
def tallyPlan : Plan → Nat × Nat × List (String × Nat × Nat) →
    Nat × Nat × List (String × Nat × Nat)
  | [], acc => acc
  | (_, ss) :: rest, acc => tallyPlan rest (tallySessions ss acc)

/-- Embedding of `StudyScheduler.get_progress` (`scheduler.py` lines 256-280,
`study_scheduler.py` lines 176-201): count all sessions and the completed
ones while building the per-subject breakdown; the completion rate is
`completed_sessions / total_sessions * 100` guarded by `total_sessions > 0`
and `0` otherwise. -/
def get_progress (plan : Plan) : Progress :=
  let acc := tallyPlan plan (0, 0, [])
  { totalSessions := acc.1
    completedSessions := acc.2.1
    completionRate :=
      if acc.1 > 0 then (acc.2.1 : Rat) / (acc.1 : Rat) * 100 else 0
    subjectProgress := acc.2.2 }

theorem tallySessions_counts (ss : List Session) (t c : Nat)
    (sp : List (String × Nat × Nat)) :
    (tallySessions ss (t, c, sp)).1 = t + ss.length ∧
    (tallySessions ss (t, c, sp)).2.1 =
      c + (ss.filter (fun s => s.completed)).length := by
  induction ss generalizing t c sp with
  | nil => simp [tallySessions]
  | cons s rest ih =>
    simp only [tallySessions]
    cases hc : s.completed with
    | true =>
      refine ⟨?_, ?_⟩
      · rw [(ih (t + 1) _ _).1]
        simp
        omega
      · rw [if_pos rfl, (ih (t + 1) (c + 1) _).2,
          List.filter_cons, if_pos (by simp [hc])]
        simp
        omega
    | false =>
      refine ⟨?_, ?_⟩
      · rw [(ih (t + 1) _ _).1]
        simp
        omega
      · rw [if_neg (by simp), (ih (t + 1) c _).2,
          List.filter_cons, if_neg (by simp [hc])]

theorem tallyPlan_counts (p : Plan) (t c : Nat)
    (sp : List (String × Nat × Nat)) :
    (tallyPlan p (t, c, sp)).1 = t + (planSessions p).length ∧
    (tallyPlan p (t, c, sp)).2.1 =
      c + ((planSessions p).filter (fun s => s.completed)).length := by
  induction p generalizing t c sp with
  | nil => simp [tallyPlan, planSessions]
  | cons e rest ih =>
    obtain ⟨d, ss⟩ := e
    simp only [tallyPlan]
    have hs := tallySessions_counts ss t c sp
    rcases hacc : tallySessions ss (t, c, sp) with ⟨t', c', sp'⟩
    rw [hacc] at hs
    obtain ⟨hs1, hs2⟩ := hs
    simp only at hs1 hs2
    have hrest := ih t' c' sp'
    rw [planSessions_cons]
    refine ⟨?_, ?_⟩
    · rw [hrest.1]
      simp [List.length_append]
      omega
    · rw [hrest.2]
      simp [List.filter_append]
      omega

/-- C8: `get_progress` returns exactly the counts obtained by direct
enumeration of the plan's sessions, and its completion rate is exactly 0
when the plan contains no sessions and exactly
`completed / total * 100` otherwise. -/
theorem get_progress_spec (plan : Plan) :
    (get_progress plan).totalSessions = (planSessions plan).length ∧
    (get_progress plan).completedSessions =
      ((planSessions plan).filter (fun s => s.completed)).length ∧
    (get_progress plan).completionRate =
      (if (planSessions plan).length = 0 then 0 else
        ((((planSessions plan).filter (fun s => s.completed)).length : Rat) /
          ((planSessions plan).length : Rat)) * 100) := by
  obtain ⟨h1, h2⟩ := tallyPlan_counts plan 0 0 []
  rw [Nat.zero_add] at h1 h2
  have e1 : (get_progress plan).totalSessions = (tallyPlan plan (0, 0, [])).1 := rfl
  have e2 : (get_progress plan).completedSessions =
      (tallyPlan plan (0, 0, [])).2.1 := rfl
  have e3 : (get_progress plan).completionRate =
      (if (tallyPlan plan (0, 0, [])).1 > 0
       then ((tallyPlan plan (0, 0, [])).2.1 : Rat) /
            ((tallyPlan plan (0, 0, [])).1 : Rat) * 100
       else 0) := rfl
  refine ⟨by rw [e1, h1], by rw [e2, h2], ?_⟩
  rw [e3, h1, h2]
  by_cases hl : (planSessions plan).length = 0
  · rw [if_neg (by omega), if_pos hl]
  · rw [if_pos (by omega), if_neg hl]
